import Mathlib

/-!
# Verification of the chunked-synthesis pipeline (`audio_processor.py`, `run_complete_pipeline.py`)

Shallow embedding of the core of the repository:

* `AudioProc.chunkText`     — `AudioProcessor.chunk_text`   (audio_processor.py lines 99-129)
* `AudioProc.generateAudioChunk` — `AudioProcessor.generate_audio_chunk` (lines 131-156)
* `AudioProc.mergeAudioFiles`    — `AudioProcessor.merge_audio_files`    (lines 158-179)
* `AudioProc.processChunksScript` / `AudioProc.processScript` — `AudioProcessor.process_script` (lines 181-229)
* `AudioProc.runPipelineScripts` — the per-script loop of `run_pipeline` (run_complete_pipeline.py lines 160-177)

Python strings are modelled as `List Char`; Python `str.strip` / `str.rfind`
are modelled exactly (strip over ASCII whitespace, the only kind used in the
repository).  External collaborators (the F5-TTS `infer` call, the filesystem)
are oracles/state passed explicitly.
-/

namespace AudioProc

/-- ASCII whitespace as stripped by Python's `str.strip()`:
space, tab, newline, carriage return, vertical tab, form feed. -/
def pyIsSpace (c : Char) : Bool :=
  c = ' ' || c = '\t' || c = '\n' || c = '\r' || c = Char.ofNat 11 || c = Char.ofNat 12

/-- Python `s.strip()`: drop leading and trailing whitespace. -/
def pyStrip (l : List Char) : List Char :=
  ((l.dropWhile pyIsSpace).reverse.dropWhile pyIsSpace).reverse

/-- Python slice `l[a:b]` for `a ≤ b` (indices clamped to the list length). -/
def slice (l : List Char) (a b : Nat) : List Char := (l.drop a).take (b - a)

/-- The substring `sub` occurs in `l` at index `i` (Python `l[i:i+len(sub)] == sub`). -/
def matchesAt (l sub : List Char) (i : Nat) : Bool :=
  decide (slice l i (i + sub.length) = sub)

/-- Scan indices `n-1, n-2, …, 0` for the highest match of `sub` in `l`. -/
def rfindGo (l sub : List Char) : Nat → Option Nat
  | 0 => none
  | n + 1 => if matchesAt l sub n then some n else rfindGo l sub n

/-- Python `l.rfind(sub)`: index of the rightmost occurrence of `sub` in `l`
(`none` models Python's `-1`). -/
def pyRfind (l sub : List Char) : Option Nat := rfindGo l sub (l.length + 1)

/-- The sentence-terminator markers of `chunk_text`, in the source's fixed
priority order: `". "`, `"! "`, `"? "`, `".\n"`, `"!\n"`, `"?\n"`. -/
def delims : List (List Char) :=
  [['.', ' '], ['!', ' '], ['?', ' '], ['.', '\n'], ['!', '\n'], ['?', '\n']]

/-- The `for delimiter in [...]` loop of `chunk_text`: return the rightmost
occurrence (and the marker's length) for the first marker in the list that
occurs at all in `chunk`; `none` if no marker occurs. -/
def findDelim (chunk : List Char) : List (List Char) → Option (Nat × Nat)
  | [] => none
  | d :: ds =>
    match pyRfind chunk d with
    | some i => some (i, d.length)
    | none => findDelim chunk ds

/-- The boundary chosen by one iteration of the `chunk_text` loop in the
non-final case: start from `end_pos = pos + maxChars`, then, if some marker
occurs in the window `text[pos : pos+maxChars]`, move `end_pos` to just after
the rightmost occurrence of the first marker in priority order. -/
def nextEnd (text : List Char) (maxChars pos : Nat) : Nat :=
  match findDelim (slice text pos (pos + maxChars)) delims with
  | some (i, dl) => pos + i + dl
  | none => pos + maxChars

/-- The `while current_pos < len(text)` loop of `chunk_text`, fuel-indexed.
`text.length + 1` fuel suffices for `maxChars ≥ 1` (theorem
`chunkTextLoop_fuel_irrelevant`). -/
def chunkTextLoop (text : List Char) (maxChars : Nat) : Nat → Nat → List (List Char)
  | 0, _ => []
  | fuel + 1, pos =>
    if pos < text.length then
      if text.length ≤ pos + maxChars then
        [pyStrip (text.drop pos)]
      else
        let e := nextEnd text maxChars pos
        pyStrip (slice text pos e) :: chunkTextLoop text maxChars fuel e
    else []

/-- `AudioProcessor.chunk_text(text, max_chars)` (audio_processor.py 99-129). -/
def chunkText (text : List Char) (maxChars : Nat) : List (List Char) :=
  if text.length ≤ maxChars then [text]
  else chunkTextLoop text maxChars (text.length + 1) 0

/-- The same recursion as `chunkTextLoop`, recording the untrimmed chunk
boundaries `(current_pos, end_pos)` the code chooses instead of the trimmed
chunks. -/
def chunkBoundsLoop (text : List Char) (maxChars : Nat) : Nat → Nat → List (Nat × Nat)
  | 0, _ => []
  | fuel + 1, pos =>
    if pos < text.length then
      if text.length ≤ pos + maxChars then
        [(pos, text.length)]
      else
        let e := nextEnd text maxChars pos
        (pos, e) :: chunkBoundsLoop text maxChars fuel e
    else []

/-- The untrimmed chunk boundaries chosen by `chunk_text`. -/
def chunkBounds (text : List Char) (maxChars : Nat) : List (Nat × Nat) :=
  if text.length ≤ maxChars then [(0, text.length)]
  else chunkBoundsLoop text maxChars (text.length + 1) 0

/-! ## Basic lemmas about slices and `rfind` -/

theorem length_slice (l : List Char) (a b : Nat) :
    (slice l a b).length = min (b - a) (l.length - a) := by
  unfold slice
  rw [List.length_take, List.length_drop]

theorem slice_append (l : List Char) {a b : Nat} (h : a ≤ b) :
    slice l a b ++ l.drop b = l.drop a := by
  unfold slice
  have hd : l.drop b = (l.drop a).drop (b - a) := by
    rw [List.drop_drop]
    congr 1
    omega
  rw [hd, List.take_append_drop]

theorem slice_to_length (l : List Char) (a : Nat) : slice l a l.length = l.drop a := by
  unfold slice
  exact List.take_of_length_le (by rw [List.length_drop])

theorem matchesAt_iff (l sub : List Char) (i : Nat) :
    matchesAt l sub i = true ↔ slice l i (i + sub.length) = sub := by
  unfold matchesAt
  exact decide_eq_true_iff

theorem matchesAt_le (l : List Char) {sub : List Char} {i : Nat} (hsub : sub ≠ [])
    (h : matchesAt l sub i = true) : i + sub.length ≤ l.length := by
  rw [matchesAt_iff] at h
  have hl := congrArg List.length h
  rw [length_slice] at hl
  have hmin : min sub.length (l.length - i) = sub.length := by
    have : i + sub.length - i = sub.length := by omega
    rw [this] at hl
    exact hl
  have hpos : 0 < sub.length := List.length_pos.mpr hsub
  rcases Nat.le_total sub.length (l.length - i) with h2 | h2
  · omega
  · rw [Nat.min_eq_right h2] at hmin
    omega

theorem rfindGo_some (l sub : List Char) :
    ∀ n i, rfindGo l sub n = some i →
      matchesAt l sub i = true ∧ i < n ∧ ∀ j, i < j → j < n → matchesAt l sub j = false := by
  intro n
  induction n with
  | zero => intro i h; simp [rfindGo] at h
  | succ n ih =>
    intro i h
    unfold rfindGo at h
    by_cases hm : matchesAt l sub n = true
    · rw [if_pos hm] at h
      obtain rfl : n = i := by injection h
      refine ⟨hm, Nat.lt_succ_self _, fun j hj hj2 => ?_⟩
      exact absurd hj2 (by omega)
    · rw [if_neg hm] at h
      obtain ⟨h1, h2, h3⟩ := ih i h
      refine ⟨h1, by omega, fun j hj hj2 => ?_⟩
      by_cases hjn : j = n
      · subst hjn
        exact Bool.not_eq_true _ ▸ (by revert hm; cases matchesAt l sub j <;> simp)
      · exact h3 j hj (by omega)

theorem rfindGo_none (l sub : List Char) :
    ∀ n, rfindGo l sub n = none → ∀ j, j < n → matchesAt l sub j = false := by
  intro n
  induction n with
  | zero => intro _ j hj; omega
  | succ n ih =>
    intro h j hj
    unfold rfindGo at h
    by_cases hm : matchesAt l sub n = true
    · rw [if_pos hm] at h; exact absurd h (by simp)
    · rw [if_neg hm] at h
      by_cases hjn : j = n
      · subst hjn
        revert hm; cases matchesAt l sub j <;> simp
      · exact ih h j (by omega)

theorem pyRfind_some {l sub : List Char} {i : Nat} (hsub : sub ≠ [])
    (h : pyRfind l sub = some i) :
    matchesAt l sub i = true ∧ ∀ j, matchesAt l sub j = true → j ≤ i := by
  obtain ⟨h1, _, h3⟩ := rfindGo_some l sub _ i h
  refine ⟨h1, fun j hj => ?_⟩
  by_contra hlt
  push_neg at hlt
  have hle := matchesAt_le l hsub hj
  have hpos : 0 < sub.length := List.length_pos.mpr hsub
  have hz := h3 j hlt (by omega)
  rw [hz] at hj
  exact Bool.false_ne_true hj

theorem pyRfind_none {l sub : List Char} (hsub : sub ≠ [])
    (h : pyRfind l sub = none) : ∀ j, matchesAt l sub j = false := by
  intro j
  by_cases hjl : j < l.length + 1
  · exact rfindGo_none l sub _ h j hjl
  · by_cases hm : matchesAt l sub j = true
    · have hle := matchesAt_le l hsub hm
      have hpos : 0 < sub.length := List.length_pos.mpr hsub
      omega
    · revert hm; cases matchesAt l sub j <;> simp

/-! ## Lemmas about the delimiter search -/

theorem delims_length_two : ∀ d ∈ delims, d.length = 2 := by decide

theorem findDelim_none {chunk : List Char} {ds : List (List Char)}
    (h : findDelim chunk ds = none) : ∀ d ∈ ds, pyRfind chunk d = none := by
  induction ds with
  | nil => intro d hd; exact absurd hd (List.not_mem_nil d)
  | cons d ds ih =>
    intro d2 hd2
    unfold findDelim at h
    cases hr : pyRfind chunk d with
    | some j => rw [hr] at h; exact absurd h (by simp)
    | none =>
      rw [hr] at h
      rcases List.mem_cons.mp hd2 with h2 | h2
      · subst h2; exact hr
      · exact ih h d2 h2

theorem findDelim_some {chunk : List Char} {ds : List (List Char)} {i dl : Nat}
    (h : findDelim chunk ds = some (i, dl)) :
    ∃ k, ∃ hk : k < ds.length,
      pyRfind chunk (ds.get ⟨k, hk⟩) = some i
      ∧ dl = (ds.get ⟨k, hk⟩).length
      ∧ ∀ k2, (hk2 : k2 < ds.length) → k2 < k → pyRfind chunk (ds.get ⟨k2, hk2⟩) = none := by
  induction ds with
  | nil => simp [findDelim] at h
  | cons d ds ih =>
    unfold findDelim at h
    cases hr : pyRfind chunk d with
    | some j =>
      rw [hr] at h
      have hji : j = i ∧ d.length = dl := by
        have h2 := h
        injection h2 with h3
        exact ⟨congrArg Prod.fst h3, congrArg Prod.snd h3⟩
      refine ⟨0, by simp, ?_, ?_, ?_⟩
      · simpa [hji.1] using hr
      · simp [hji.2]
      · intro k2 hk2 hk2lt; omega
    | none =>
      rw [hr] at h
      obtain ⟨k, hk, h1, h2, h3⟩ := ih h
      refine ⟨k + 1, by simpa using Nat.succ_lt_succ hk, by simpa using h1, by simpa using h2, ?_⟩
      intro k2 hk2 hlt
      cases k2 with
      | zero => simpa using hr
      | succ k3 =>
        have hk3 : k3 < ds.length := by simpa using hk2
        simpa using h3 k3 hk3 (by omega)

theorem delims_get_ne_nil (k : Nat) (hk : k < delims.length) : delims.get ⟨k, hk⟩ ≠ [] := by
  intro hnil
  have hmem : delims.get ⟨k, hk⟩ ∈ delims := List.get_mem delims k hk
  have := delims_length_two _ hmem
  rw [hnil] at this
  simp at this

/-! ## Lemmas about the boundary choice `nextEnd` -/

theorem slice_window_length {text : List Char} {maxChars pos : Nat}
    (h : pos + maxChars ≤ text.length) :
    (slice text pos (pos + maxChars)).length = maxChars := by
  rw [length_slice]
  have h1 : pos + maxChars - pos = maxChars := by omega
  rw [h1]
  exact Nat.min_eq_left (by omega)

theorem nextEnd_of_none {text : List Char} {maxChars pos : Nat}
    (h : findDelim (slice text pos (pos + maxChars)) delims = none) :
    nextEnd text maxChars pos = pos + maxChars := by
  unfold nextEnd
  rw [h]

theorem nextEnd_of_some {text : List Char} {maxChars pos i dl : Nat}
    (h : findDelim (slice text pos (pos + maxChars)) delims = some (i, dl)) :
    nextEnd text maxChars pos = pos + i + dl ∧ dl = 2
    ∧ (pos + maxChars ≤ text.length → i + dl ≤ maxChars) := by
  obtain ⟨k, hk, h1, h2, _⟩ := findDelim_some h
  have hne := delims_get_ne_nil k hk
  have hlen2 : (delims.get ⟨k, hk⟩).length = 2 :=
    delims_length_two _ (List.get_mem delims k hk)
  have hmatch := (pyRfind_some hne h1).1
  refine ⟨by unfold nextEnd; rw [h], by omega, ?_⟩
  intro hwin
  have hle := matchesAt_le _ hne hmatch
  rw [slice_window_length hwin] at hle
  omega

theorem nextEnd_bounds {text : List Char} {maxChars pos : Nat}
    (h1 : 1 ≤ maxChars) (h2 : pos + maxChars ≤ text.length) :
    pos < nextEnd text maxChars pos ∧ nextEnd text maxChars pos ≤ pos + maxChars := by
  cases hf : findDelim (slice text pos (pos + maxChars)) delims with
  | none => rw [nextEnd_of_none hf]; omega
  | some pr =>
    obtain ⟨i, dl⟩ := pr
    obtain ⟨he, hdl, hle⟩ := nextEnd_of_some hf
    have := hle h2
    rw [he]
    omega

/-! ## Lemmas about the `chunk_text` loop -/

theorem chunkBoundsLoop_join {text : List Char} {maxChars : Nat} (h1 : 1 ≤ maxChars) :
    ∀ fuel pos, text.length ≤ fuel + pos →
      ((chunkBoundsLoop text maxChars fuel pos).map (fun p => slice text p.1 p.2)).flatten
        = text.drop pos := by
  intro fuel
  induction fuel with
  | zero =>
    intro pos h
    rw [List.drop_eq_nil_of_le (by omega)]
    simp [chunkBoundsLoop]
  | succ fuel ih =>
    intro pos h
    unfold chunkBoundsLoop
    by_cases hp : pos < text.length
    · rw [if_pos hp]
      by_cases hend : text.length ≤ pos + maxChars
      · rw [if_pos hend]
        simp [slice_to_length]
      · rw [if_neg hend]
        have hb := nextEnd_bounds h1 (by omega : pos + maxChars ≤ text.length)
        simp only [List.map_cons, List.flatten_cons]
        rw [ih (nextEnd text maxChars pos) (by omega)]
        exact slice_append text (Nat.le_of_lt hb.1)
    · rw [if_neg hp]
      rw [List.drop_eq_nil_of_le (by omega)]
      simp

theorem chunkTextLoop_eq_map (text : List Char) (maxChars : Nat) :
    ∀ fuel pos,
      chunkTextLoop text maxChars fuel pos
        = (chunkBoundsLoop text maxChars fuel pos).map (fun p => pyStrip (slice text p.1 p.2)) := by
  intro fuel
  induction fuel with
  | zero => intro pos; simp [chunkTextLoop, chunkBoundsLoop]
  | succ fuel ih =>
    intro pos
    unfold chunkTextLoop chunkBoundsLoop
    by_cases hp : pos < text.length
    · rw [if_pos hp, if_pos hp]
      by_cases hend : text.length ≤ pos + maxChars
      · rw [if_pos hend, if_pos hend]
        simp [slice_to_length]
      · rw [if_neg hend, if_neg hend]
        exact congrArg
          (fun l => pyStrip (slice text pos (nextEnd text maxChars pos)) :: l)
          (ih (nextEnd text maxChars pos))
    · rw [if_neg hp, if_neg hp]
      simp

theorem chunkBoundsLoop_fuel {text : List Char} {maxChars : Nat} (h1 : 1 ≤ maxChars) :
    ∀ fuelA fuelB pos, text.length ≤ fuelA + pos → text.length ≤ fuelB + pos →
      chunkBoundsLoop text maxChars fuelA pos = chunkBoundsLoop text maxChars fuelB pos := by
  intro fuelA
  induction fuelA with
  | zero =>
    intro fuelB pos hA hB
    have hp : ¬ pos < text.length := by omega
    cases fuelB with
    | zero => rfl
    | succ fuelB => simp [chunkBoundsLoop, hp]
  | succ fuelA ih =>
    intro fuelB pos hA hB
    by_cases hp : pos < text.length
    · cases fuelB with
      | zero => omega
      | succ fuelB =>
        unfold chunkBoundsLoop
        rw [if_pos hp, if_pos hp]
        by_cases hend : text.length ≤ pos + maxChars
        · rw [if_pos hend, if_pos hend]
        · rw [if_neg hend, if_neg hend]
          have hb := nextEnd_bounds h1 (by omega : pos + maxChars ≤ text.length)
          exact congrArg
            (fun l => (pos, nextEnd text maxChars pos) :: l)
            (ih fuelB (nextEnd text maxChars pos) (by omega) (by omega))
    · cases fuelB with
      | zero => simp [chunkBoundsLoop, hp]
      | succ fuelB => simp [chunkBoundsLoop, hp]

theorem pyStrip_eq_nil_iff (l : List Char) :
    pyStrip l = [] ↔ ∀ c ∈ l, pyIsSpace c = true := by
  unfold pyStrip
  rw [List.reverse_eq_nil_iff, List.dropWhile_eq_nil_iff]
  constructor
  · intro h c hc
    have hsplit := List.takeWhile_append_dropWhile (p := pyIsSpace) (l := l)
    rw [← hsplit] at hc
    rcases List.mem_append.mp hc with h2 | h2
    · exact List.mem_takeWhile_imp h2
    · exact h c (List.mem_reverse.mpr h2)
  · intro h c hc
    have hmem : c ∈ l.dropWhile pyIsSpace := List.mem_reverse.mp hc
    exact h c ((List.dropWhile_sublist pyIsSpace).mem hmem)

/-! ## Claim theorems for the Segmenter -/

/-- C1: for every input text and every `maxChars ≥ 1`, concatenating the
untrimmed slices of the input delimited by the successive chunk boundaries
chosen by `chunk_text` reconstructs the original text exactly; the cursor
always advances to the untrimmed boundary position, and the emitted chunks are
exactly the trims of those slices (in the single-chunk case the raw slice
itself, which is the whole text). -/
theorem chunkText_reconstructs (text : List Char) (maxChars : Nat) (h : 1 ≤ maxChars) :
    ((chunkBounds text maxChars).map (fun p => slice text p.1 p.2)).flatten = text
    ∧ (maxChars < text.length →
        chunkText text maxChars
          = (chunkBounds text maxChars).map (fun p => pyStrip (slice text p.1 p.2)))
    ∧ (text.length ≤ maxChars →
        chunkBounds text maxChars = [(0, text.length)]
        ∧ chunkText text maxChars = [slice text 0 text.length]) := by
  unfold chunkText chunkBounds
  by_cases hle : text.length ≤ maxChars
  · rw [if_pos hle, if_pos hle]
    refine ⟨?_, fun hlt => absurd hlt (by omega), fun _ => ⟨rfl, ?_⟩⟩
    · simp [slice_to_length]
    · rw [slice_to_length, List.drop_zero]
  · rw [if_neg hle, if_neg hle]
    refine ⟨?_, fun _ => chunkTextLoop_eq_map text maxChars _ 0, fun h2 => absurd h2 hle⟩
    have hj := @chunkBoundsLoop_join text maxChars h (text.length + 1) 0 (by omega)
    simpa using hj

/-- C1 witness: the reconstruction theorem applied to the concrete input
`"a. b"` with `maxChars = 2`. -/
theorem chunkText_reconstructs_witness :
    1 ≤ 2
    ∧ (((chunkBounds ['a', '.', ' ', 'b'] 2).map
          (fun p => slice ['a', '.', ' ', 'b'] p.1 p.2)).flatten = ['a', '.', ' ', 'b']
      ∧ (2 < (['a', '.', ' ', 'b'] : List Char).length →
          chunkText ['a', '.', ' ', 'b'] 2
            = (chunkBounds ['a', '.', ' ', 'b'] 2).map
                (fun p => pyStrip (slice ['a', '.', ' ', 'b'] p.1 p.2)))
      ∧ ((['a', '.', ' ', 'b'] : List Char).length ≤ 2 →
          chunkBounds ['a', '.', ' ', 'b'] 2 = [(0, (['a', '.', ' ', 'b'] : List Char).length)]
          ∧ chunkText ['a', '.', ' ', 'b'] 2
              = [slice ['a', '.', ' ', 'b'] 0 (['a', '.', ' ', 'b'] : List Char).length])) :=
  ⟨by decide, chunkText_reconstructs ['a', '.', ' ', 'b'] 2 (by decide)⟩

/-- C10: for every input text and every `maxChars ≥ 1`, `chunk_text`
terminates: each loop iteration strictly increases the cursor — on a hard cut
it advances by exactly `maxChars` (hence at least `maxChars`), and when a
sentence-terminator marker is matched it advances to the delimiter position
plus the delimiter length 2, hence by at least 2 — so the result of the
fuel-indexed loop is already stable at `text.length` fuel. -/
theorem chunkText_cursor_advances (text : List Char) (maxChars : Nat) (h : 1 ≤ maxChars) :
    (∀ pos, pos + maxChars ≤ text.length →
       pos < nextEnd text maxChars pos
       ∧ (findDelim (slice text pos (pos + maxChars)) delims = none →
            nextEnd text maxChars pos = pos + maxChars)
       ∧ (∀ i dl, findDelim (slice text pos (pos + maxChars)) delims = some (i, dl) →
            nextEnd text maxChars pos = pos + i + dl ∧ dl = 2
            ∧ pos + 2 ≤ nextEnd text maxChars pos))
    ∧ (∀ fuel, text.length ≤ fuel →
         chunkTextLoop text maxChars fuel 0 = chunkTextLoop text maxChars (text.length + 1) 0) := by
  constructor
  · intro pos hpos
    refine ⟨(nextEnd_bounds h hpos).1, nextEnd_of_none, ?_⟩
    intro i dl hf
    obtain ⟨he, hdl, _⟩ := nextEnd_of_some hf
    exact ⟨he, hdl, by omega⟩
  · intro fuel hf
    rw [chunkTextLoop_eq_map, chunkTextLoop_eq_map]
    rw [chunkBoundsLoop_fuel h fuel (text.length + 1) 0 (by omega) (by omega)]

/-- C10 witness: the termination theorem applied to the concrete input
`"abc"` with `maxChars = 1`. -/
theorem chunkText_cursor_advances_witness :
    1 ≤ 1
    ∧ ((∀ pos, pos + 1 ≤ (['a', 'b', 'c'] : List Char).length →
          pos < nextEnd ['a', 'b', 'c'] 1 pos
          ∧ (findDelim (slice ['a', 'b', 'c'] pos (pos + 1)) delims = none →
               nextEnd ['a', 'b', 'c'] 1 pos = pos + 1)
          ∧ (∀ i dl, findDelim (slice ['a', 'b', 'c'] pos (pos + 1)) delims = some (i, dl) →
               nextEnd ['a', 'b', 'c'] 1 pos = pos + i + dl ∧ dl = 2
               ∧ pos + 2 ≤ nextEnd ['a', 'b', 'c'] 1 pos))
      ∧ (∀ fuel, (['a', 'b', 'c'] : List Char).length ≤ fuel →
           chunkTextLoop ['a', 'b', 'c'] 1 fuel 0
             = chunkTextLoop ['a', 'b', 'c'] 1 ((['a', 'b', 'c'] : List Char).length + 1) 0)) :=
  ⟨by decide, chunkText_cursor_advances ['a', 'b', 'c'] 1 (by decide)⟩

/-- C3: in the candidate window `text[pos : pos+maxChars]`, if at least one
sentence-terminator marker occurs, the boundary is placed immediately after the
rightmost occurrence of the first marker type (in the fixed priority order of
`delims`) that occurs anywhere in the window; if no marker occurs, the boundary
is the hard cut at `pos + maxChars`.  No error is ever raised (`nextEnd` is a
total function). -/
theorem chunkText_marker_priority (text : List Char) (maxChars pos : Nat) :
    ((∀ d ∈ delims, ∀ j, j < maxChars →
        matchesAt (slice text pos (pos + maxChars)) d j = false) →
      nextEnd text maxChars pos = pos + maxChars)
    ∧ ((∃ d ∈ delims, ∃ j, matchesAt (slice text pos (pos + maxChars)) d j = true) →
        ∃ k, ∃ hk : k < delims.length, ∃ i,
          matchesAt (slice text pos (pos + maxChars)) (delims.get ⟨k, hk⟩) i = true
          ∧ (∀ j, matchesAt (slice text pos (pos + maxChars)) (delims.get ⟨k, hk⟩) j = true →
               j ≤ i)
          ∧ (∀ k2, (hk2 : k2 < delims.length) → k2 < k →
               ∀ j, matchesAt (slice text pos (pos + maxChars)) (delims.get ⟨k2, hk2⟩) j = false)
          ∧ nextEnd text maxChars pos = pos + i + (delims.get ⟨k, hk⟩).length) := by
  have hwin : (slice text pos (pos + maxChars)).length ≤ maxChars := by
    rw [length_slice]
    have he : pos + maxChars - pos = maxChars := by omega
    rw [he]
    exact Nat.min_le_left _ _
  constructor
  · intro hall
    cases hf : findDelim (slice text pos (pos + maxChars)) delims with
    | none => exact nextEnd_of_none hf
    | some pr =>
      obtain ⟨i, dl⟩ := pr
      obtain ⟨k, hk, h1, h2, _⟩ := findDelim_some hf
      have hne := delims_get_ne_nil k hk
      have hm := (pyRfind_some hne h1).1
      have hlen2 : (delims.get ⟨k, hk⟩).length = 2 :=
        delims_length_two _ (List.get_mem delims k hk)
      have hile := matchesAt_le _ hne hm
      have hik : i < maxChars := by omega
      have hz := hall _ (List.get_mem delims k hk) i hik
      rw [hz] at hm
      exact absurd hm (by simp)
  · intro hex
    cases hf : findDelim (slice text pos (pos + maxChars)) delims with
    | none =>
      obtain ⟨d, hd, j, hj⟩ := hex
      have hrd := findDelim_none hf d hd
      have hdne : d ≠ [] := by
        intro hnil
        have := delims_length_two d hd
        rw [hnil] at this
        simp at this
      have hz := pyRfind_none hdne hrd j
      rw [hz] at hj
      exact absurd hj (by simp)
    | some pr =>
      obtain ⟨i, dl⟩ := pr
      obtain ⟨k, hk, h1, h2, h3⟩ := findDelim_some hf
      have hne := delims_get_ne_nil k hk
      obtain ⟨hm, hmax⟩ := pyRfind_some hne h1
      refine ⟨k, hk, i, hm, hmax, ?_, ?_⟩
      · intro k2 hk2 hlt j
        exact pyRfind_none (delims_get_ne_nil k2 hk2) (h3 k2 hk2 hlt) j
      · rw [(nextEnd_of_some hf).1, h2]

/-- C3 witness: the boundary-choice theorem applied at two concrete windows —
`"xyzw"` with `maxChars = 2`, `pos = 0` (no marker: hard cut), and
`"a. b. cd"` with `maxChars = 6`, `pos = 0` (the rightmost `". "` wins). -/
theorem chunkText_marker_priority_witness :
    nextEnd ['x', 'y', 'z', 'w'] 2 0 = 0 + 2
    ∧ (∃ k, ∃ hk : k < delims.length, ∃ i,
        matchesAt (slice ['a', '.', ' ', 'b', '.', ' ', 'c', 'd'] 0 (0 + 6))
            (delims.get ⟨k, hk⟩) i = true
        ∧ (∀ j, matchesAt (slice ['a', '.', ' ', 'b', '.', ' ', 'c', 'd'] 0 (0 + 6))
              (delims.get ⟨k, hk⟩) j = true → j ≤ i)
        ∧ (∀ k2, (hk2 : k2 < delims.length) → k2 < k →
             ∀ j, matchesAt (slice ['a', '.', ' ', 'b', '.', ' ', 'c', 'd'] 0 (0 + 6))
                 (delims.get ⟨k2, hk2⟩) j = false)
        ∧ nextEnd ['a', '.', ' ', 'b', '.', ' ', 'c', 'd'] 6 0
            = 0 + i + (delims.get ⟨k, hk⟩).length) :=
  ⟨(chunkText_marker_priority ['x', 'y', 'z', 'w'] 2 0).1 (by decide),
   (chunkText_marker_priority ['a', '.', ' ', 'b', '.', ' ', 'c', 'd'] 6 0).2
     ⟨['.', ' '], by decide, 4, by decide⟩⟩

/-- C6 counterexample: for the 3-character input `" a "` and `maxChars = 5`
(`len(text) ≤ maxChars`), `chunk_text` returns the *untrimmed* input, not the
trimmed input the claim demands. -/
theorem chunkText_short_counterexample :
    chunkText [' ', 'a', ' '] 5 = [[' ', 'a', ' ']]
    ∧ pyStrip [' ', 'a', ' '] = ['a']
    ∧ chunkText [' ', 'a', ' '] 5 ≠ [pyStrip [' ', 'a', ' ']] := by decide

/-- C6 amended: for every text whose length is at most `maxChars`,
`chunk_text` returns exactly one chunk equal to the input as-is (untrimmed). -/
theorem chunkText_short_returns_input (text : List Char) (maxChars : Nat)
    (h : text.length ≤ maxChars) : chunkText text maxChars = [text] := by
  unfold chunkText
  rw [if_pos h]

/-- C6 witness: the amended single-chunk theorem applied to `"ab"`,
`maxChars = 5`. -/
theorem chunkText_short_returns_input_witness :
    (['a', 'b'] : List Char).length ≤ 5 ∧ chunkText ['a', 'b'] 5 = [['a', 'b']] :=
  ⟨by decide, chunkText_short_returns_input ['a', 'b'] 5 (by decide)⟩

/-- C7 counterexample: chunks can be empty — for `"a.     "` with
`maxChars = 3` the all-whitespace slices trim to the empty chunk, and for the
empty input with `maxChars = 1` the single returned chunk is empty. -/
theorem chunkText_empty_chunk_counterexample :
    [] ∈ chunkText ['a', '.', ' ', ' ', ' ', ' ', ' '] 3
    ∧ [] ∈ chunkText ([] : List Char) 1 := by decide

/-- C7 amended: for every input text and every `maxChars ≥ 1`, in the
multi-chunk case a chunk is empty exactly when its untrimmed slice is
all-whitespace (so every chunk whose slice contains a non-whitespace character
is non-empty; degenerate all-whitespace chunks are not filtered); in the
single-chunk case the chunk is the whole input, non-empty whenever the input
is. -/
theorem chunkText_chunk_empty_iff (text : List Char) (maxChars : Nat) (h : 1 ≤ maxChars) :
    (maxChars < text.length →
      ∀ q ∈ (chunkText text maxChars).zip (chunkBounds text maxChars),
        (q.1 = [] ↔ ∀ c ∈ slice text q.2.1 q.2.2, pyIsSpace c = true))
    ∧ (text.length ≤ maxChars →
        chunkText text maxChars = [text]
        ∧ (text ≠ [] → ∀ c ∈ chunkText text maxChars, c ≠ [])) := by
  constructor
  · intro hlt q hq
    have hmap : chunkText text maxChars
        = (chunkBounds text maxChars).map (fun p => pyStrip (slice text p.1 p.2)) := by
      unfold chunkText chunkBounds
      rw [if_neg (by omega), if_neg (by omega)]
      exact chunkTextLoop_eq_map text maxChars _ 0
    rw [hmap] at hq
    have hzip := List.zip_map' (fun p => pyStrip (slice text p.1 p.2)) id
      (chunkBounds text maxChars)
    rw [List.map_id] at hzip
    rw [hzip] at hq
    obtain ⟨p, _, rfl⟩ := List.mem_map.mp hq
    simpa using pyStrip_eq_nil_iff (slice text p.1 p.2)
  · intro hle
    refine ⟨by unfold chunkText; rw [if_pos hle], ?_⟩
    intro hne c hc
    have hc2 : c = text := by
      unfold chunkText at hc
      rw [if_pos hle] at hc
      simpa using hc
    rw [hc2]
    exact hne

/-- C7 witness: the amended emptiness characterization applied to `"a. bc"`
with `maxChars = 3`. -/
theorem chunkText_chunk_empty_iff_witness :
    1 ≤ 3
    ∧ ((3 < (['a', '.', ' ', 'b', 'c'] : List Char).length →
        ∀ q ∈ (chunkText ['a', '.', ' ', 'b', 'c'] 3).zip (chunkBounds ['a', '.', ' ', 'b', 'c'] 3),
          (q.1 = [] ↔ ∀ c ∈ slice ['a', '.', ' ', 'b', 'c'] q.2.1 q.2.2, pyIsSpace c = true))
      ∧ ((['a', '.', ' ', 'b', 'c'] : List Char).length ≤ 3 →
          chunkText ['a', '.', ' ', 'b', 'c'] 3 = [['a', '.', ' ', 'b', 'c']]
          ∧ (['a', '.', ' ', 'b', 'c'] ≠ [] →
              ∀ c ∈ chunkText ['a', '.', ' ', 'b', 'c'] 3, c ≠ []))) :=
  ⟨by decide, chunkText_chunk_empty_iff ['a', '.', ' ', 'b', 'c'] 3 (by decide)⟩

/-! ## The synthesis adapter, merge engine, orchestrator loop and run driver

Audio buffers are abstract sample lists; the local filesystem is a map from
paths to `(samples, sampleRate)` pairs; the F5-TTS `infer` collaborator is an
oracle (`none` models a raised exception).  Uploads to Drive and the
inter-segment `time.sleep` do not touch the local state and are omitted. -/

/-- Raw audio samples returned by the synthesis collaborator. -/
abbrev Audio := List Int

/-- A local filesystem: each path holds `(samples, sampleRate)` or nothing. -/
abbrev FS (π : Type) : Type := π → Option (Audio × Nat)

/-- Write (create or overwrite) one file. -/
def fsWrite {π : Type} [DecidableEq π] (fs : FS π) (p : π) (a : Audio) (sr : Nat) : FS π :=
  fun q => if q = p then some (a, sr) else fs q

/-- `AudioProcessor.generate_audio_chunk` (audio_processor.py 131-156):
call `infer` (its outcome is `inferResult`); on success write the returned
samples to `outputPath` at the fixed rate 24000 and return `True`; on any
exception from the collaborator return `False` without writing. -/
def generateAudioChunk {π : Type} [DecidableEq π] (inferResult : Option Audio)
    (fs : FS π) (outputPath : π) : Bool × FS π :=
  match inferResult with
  | some audio => (true, fsWrite fs outputPath audio 24000)
  | none => (false, fs)

/-- The `for audio_file in audio_files: sf.read(...)` loop of
`merge_audio_files`: read every input in order, failing on the first
unreadable file. -/
def readAll {π : Type} (fs : FS π) : List π → Option (List (Audio × Nat))
  | [] => some []
  | p :: ps =>
    match fs p with
    | none => none
    | some pr =>
      match readAll fs ps with
      | none => none
      | some rest => some (pr :: rest)

/-- `AudioProcessor.merge_audio_files` (audio_processor.py 158-179): read all
inputs, concatenate the sample arrays, and write one output file at the sample
rate of the last file read (Python's loop variable `sr`); any read failure (or
an empty input list, where `np.concatenate` raises) returns `False` with no
write. -/
def mergeAudioFiles {π : Type} [DecidableEq π] (fs : FS π) (audioFiles : List π)
    (outputPath : π) : Bool × FS π :=
  match readAll fs audioFiles with
  | none => (false, fs)
  | some [] => (false, fs)
  | some (pr :: prs) =>
    (true, fsWrite fs outputPath (((pr :: prs).map Prod.fst).flatten) ((prs.getLastD pr).2))

/-- Local artifact paths of one script run: the per-segment chunk files
(`{script}_chunk_{i+1:03d}.wav` in the temp dir) and the merged
`{script}_complete.wav` file. -/
inductive APath : Type
  | chunk (i : Nat)
  | final
deriving DecidableEq

/-- The per-segment loop of `AudioProcessor.process_script` (audio_processor.py
203-214): for each segment index in order call `generate_audio_chunk`; on
success append the chunk file to `generated_files`, on failure continue with
the next segment.  `infer i` is the synthesis collaborator's outcome for
segment `i`. -/
def processChunks (infer : Nat → Option Audio) : List Nat → FS APath → List APath × FS APath
  | [], fs => ([], fs)
  | i :: is, fs =>
    let r := generateAudioChunk (infer i) fs (APath.chunk i)
    let rest := processChunks infer is r.2
    if r.1 then (APath.chunk i :: rest.1, rest.2) else rest

/-- The merge step of `AudioProcessor.process_script` (audio_processor.py
216-224), applied to the `(generated_files, filesystem)` state left by the
per-segment loop: if any chunk file was generated, merge them all into the
final file, appending it to the returned list when the merge succeeds; with no
generated file, skip merging. -/
def finishScript (r : List APath × FS APath) : List APath × FS APath :=
  if r.1 = [] then r
  else
    if (mergeAudioFiles r.2 r.1 APath.final).1 then
      (r.1 ++ [APath.final], (mergeAudioFiles r.2 r.1 APath.final).2)
    else (r.1, (mergeAudioFiles r.2 r.1 APath.final).2)

/-- The body of `AudioProcessor.process_script` after chunking (audio_processor.py
199-229): synthesize every chunk in index order, then run the merge step. -/
def processChunksScript (chunks : List (List Char)) (infer : Nat → Option Audio)
    (fs : FS APath) : List APath × FS APath :=
  finishScript (processChunks infer (List.range chunks.length) fs)

/-- `AudioProcessor.process_script` (audio_processor.py 181-229): split the
script text with the hardcoded `max_chars=500` (line 196), then run the
per-segment loop and the merge step. -/
def processScript (scriptText : List Char) (infer : Nat → Option Audio)
    (fs : FS APath) : List APath × FS APath :=
  processChunksScript (chunkText scriptText 500) infer fs

/-- The run configuration of `run_complete_pipeline.py` (`config.json`), as far
as segmentation is concerned: the `chunk_size` key (absent when not
configured). -/
structure PipelineConfig : Type where
  chunk_size : Option Nat
deriving DecidableEq

/-- The segmentation performed for one script by `run_pipeline`
(run_complete_pipeline.py 160-177) via `AudioProcessor.process_script`:
`run_pipeline` passes no chunk size, and `process_script` calls
`chunk_text(script_text, max_chars=500)` with the literal 500
(audio_processor.py line 196) — the configuration's `chunk_size` is never
read. -/
def pipelineChunksFor (cfg : PipelineConfig) (scriptText : List Char) : List (List Char) :=
  chunkText scriptText 500

/-- The per-script loop of `run_pipeline` (run_complete_pipeline.py 160-177):
each script's processing outcome is either its generated file list or a raised
exception (`Except.error`); exceptions are caught, reported as that script's
failure, and the loop continues.  Returns `all_generated_files` together with
the per-script success record. -/
def runPipelineScripts : List (Except String (List APath)) → List APath × List Bool
  | [] => ([], [])
  | o :: os =>
    let rest := runPipelineScripts os
    match o with
    | Except.ok files => (files ++ rest.1, true :: rest.2)
    | Except.error _ => (rest.1, false :: rest.2)

/-- The files a script contributes to `all_generated_files`: its generated
list on success, nothing on a caught exception. -/
def scriptFiles : Except String (List APath) → List APath
  | Except.ok files => files
  | Except.error _ => []

/-- Whether a script's processing completed without a caught exception. -/
def scriptOk : Except String (List APath) → Bool
  | Except.ok _ => true
  | Except.error _ => false

/-! ## Claim theorems for the synthesis adapter (C4) -/

/-- C4: when the collaborator's `infer` call succeeds, `generate_audio_chunk`
returns `True` and writes exactly one file — the returned samples at the fixed
normalized rate 24000 Hz — at `outputPath`, overwriting whatever was there,
and touching no other path; when `infer` raises, it returns `False` and the
filesystem is completely unchanged (no partial write). -/
theorem generateAudioChunk_spec {π : Type} [DecidableEq π] (inferResult : Option Audio)
    (fs : FS π) (out : π) :
    (∀ audio, inferResult = some audio →
       generateAudioChunk inferResult fs out = (true, fsWrite fs out audio 24000)
       ∧ (generateAudioChunk inferResult fs out).2 out = some (audio, 24000)
       ∧ ∀ q, q ≠ out → (generateAudioChunk inferResult fs out).2 q = fs q)
    ∧ (inferResult = none →
        generateAudioChunk inferResult fs out = (false, fs)) := by
  constructor
  · intro audio ha
    subst ha
    refine ⟨rfl, ?_, ?_⟩
    · show fsWrite fs out audio 24000 out = some (audio, 24000)
      unfold fsWrite
      rw [if_pos rfl]
    · intro q hq
      show fsWrite fs out audio 24000 q = fs q
      unfold fsWrite
      rw [if_neg hq]
  · intro ha
    subst ha
    rfl

/-- C4 witness: the adapter contract applied at a concrete successful `infer`
result and at a concrete failure, over the empty filesystem. -/
theorem generateAudioChunk_spec_witness :
    (generateAudioChunk (some [(1 : Int), 2]) (fun _ => none : FS String) "out"
        = (true, fsWrite (fun _ => none) "out" [(1 : Int), 2] 24000)
      ∧ (generateAudioChunk (some [(1 : Int), 2]) (fun _ => none : FS String) "out").2 "out"
          = some ([(1 : Int), 2], 24000)
      ∧ ∀ q, q ≠ "out" →
          (generateAudioChunk (some [(1 : Int), 2]) (fun _ => none : FS String) "out").2 q
            = (fun _ => none : FS String) q)
    ∧ generateAudioChunk none (fun _ => none : FS String) "out"
        = (false, (fun _ => none : FS String)) :=
  ⟨(generateAudioChunk_spec (some [(1 : Int), 2]) (fun _ => none) "out").1 [(1 : Int), 2] rfl,
   (generateAudioChunk_spec none (fun _ => none) "out").2 rfl⟩

/-! ## Claim theorems for the merge engine (C5) -/

theorem readAll_eq_none_iff {π : Type} (fs : FS π) (files : List π) :
    readAll fs files = none ↔ ∃ f ∈ files, fs f = none := by
  induction files with
  | nil => simp [readAll]
  | cons p ps ih =>
    constructor
    · intro h
      unfold readAll at h
      cases hp : fs p with
      | none => exact ⟨p, List.mem_cons_self p ps, hp⟩
      | some pr =>
        rw [hp] at h
        cases hr : readAll fs ps with
        | none =>
          obtain ⟨f, hf, hfn⟩ := ih.mp hr
          exact ⟨f, List.mem_cons_of_mem p hf, hfn⟩
        | some rest =>
          rw [hr] at h
          exact absurd h (by simp)
    · rintro ⟨f, hf, hfn⟩
      unfold readAll
      rcases List.mem_cons.mp hf with rfl | hf2
      · rw [hfn]
      · cases hp : fs p with
        | none => rfl
        | some pr =>
          rw [ih.mpr ⟨f, hf2, hfn⟩]

theorem readAll_map {π : Type} (fs : FS π) (g : π → Audio × Nat) :
    ∀ files : List π, (∀ f ∈ files, fs f = some (g f)) →
      readAll fs files = some (files.map g) := by
  intro files
  induction files with
  | nil => intro _; rfl
  | cons p ps ih =>
    intro h
    unfold readAll
    rw [h p (List.mem_cons_self p ps), ih (fun f hf => h f (List.mem_cons_of_mem p hf))]
    rfl

/-- C5: for every non-empty list of input paths, if any input cannot be read
then `merge_audio_files` returns `False` and leaves the filesystem untouched
(no partial merge); when every input is readable it returns `True` and its
only write is the merged output file. -/
theorem mergeAudioFiles_spec {π : Type} [DecidableEq π] (fs : FS π) (files : List π)
    (out : π) (hne : files ≠ []) :
    ((∃ f ∈ files, fs f = none) → mergeAudioFiles fs files out = (false, fs))
    ∧ ((∀ f ∈ files, fs f ≠ none) →
        (mergeAudioFiles fs files out).1 = true
        ∧ ∃ a sr, (mergeAudioFiles fs files out).2 = fsWrite fs out a sr) := by
  constructor
  · intro hex
    unfold mergeAudioFiles
    rw [(readAll_eq_none_iff fs files).mpr hex]
  · intro hall
    have hg : ∀ f ∈ files, fs f = some ((fs f).getD ([], 0)) := by
      intro f hf
      cases hfs : fs f with
      | none => exact absurd hfs (hall f hf)
      | some pr => rfl
    have hr := readAll_map fs (fun f => (fs f).getD ([], 0)) files hg
    cases files with
    | nil => exact absurd rfl hne
    | cons p ps =>
      unfold mergeAudioFiles
      rw [hr]
      simp only [List.map_cons]
      exact ⟨trivial, _, _, rfl⟩

/-- A concrete filesystem used in witnesses: only the path `"a"` exists. -/
def fsOnlyA : FS String :=
  fun p => if p = "a" then some ([(1 : Int)], 24000) else none

/-- C5 witness: the merge contract applied at the concrete file lists
`["a", "b"]` (where `"b"` is unreadable: failure, no write) and `["a"]`
(all readable: success). -/
theorem mergeAudioFiles_spec_witness :
    (["a", "b"] ≠ ([] : List String))
    ∧ mergeAudioFiles fsOnlyA ["a", "b"] "out" = (false, fsOnlyA)
    ∧ ((mergeAudioFiles fsOnlyA ["a"] "out").1 = true
       ∧ ∃ a sr, (mergeAudioFiles fsOnlyA ["a"] "out").2 = fsWrite fsOnlyA "out" a sr) :=
  ⟨by simp,
   (mergeAudioFiles_spec fsOnlyA ["a", "b"] "out" (by simp)).1
     ⟨"b", by simp, by unfold fsOnlyA; simp⟩,
   (mergeAudioFiles_spec fsOnlyA ["a"] "out" (by simp)).2
     (by intro f hf; simp at hf; subst hf; unfold fsOnlyA; simp)⟩

/-! ## Claim theorems for the orchestrator loop (C2) -/

theorem processChunks_fst (infer : Nat → Option Audio) :
    ∀ (idxs : List Nat) (fs : FS APath),
      (processChunks infer idxs fs).1
        = (idxs.filter (fun i => (infer i).isSome)).map APath.chunk := by
  intro idxs
  induction idxs with
  | nil => intro fs; rfl
  | cons i is ih =>
    intro fs
    cases hi : infer i with
    | none => simp [processChunks, generateAudioChunk, hi, ih, List.filter_cons]
    | some a => simp [processChunks, generateAudioChunk, hi, ih, List.filter_cons]

theorem processChunks_snd_cons (infer : Nat → Option Audio) (i : Nat) (is : List Nat)
    (fs : FS APath) :
    (processChunks infer (i :: is) fs).2
      = (processChunks infer is ((generateAudioChunk (infer i) fs (APath.chunk i)).2)).2 := by
  have hcons : processChunks infer (i :: is) fs
      = (let r := generateAudioChunk (infer i) fs (APath.chunk i);
         let rest := processChunks infer is r.2;
         if r.1 then (APath.chunk i :: rest.1, rest.2) else rest) := rfl
  rw [hcons]
  cases hr : (generateAudioChunk (infer i) fs (APath.chunk i)).1 <;> simp [hr]

theorem processChunks_fs_untouched (infer : Nat → Option Audio) :
    ∀ (idxs : List Nat) (fs : FS APath) (q : APath),
      (∀ i ∈ idxs, q ≠ APath.chunk i) → (processChunks infer idxs fs).2 q = fs q := by
  intro idxs
  induction idxs with
  | nil => intro fs q _; rfl
  | cons i is ih =>
    intro fs q hq
    rw [processChunks_snd_cons]
    rw [ih _ q (fun j hj => hq j (List.mem_cons_of_mem i hj))]
    cases hi : infer i with
    | none => rfl
    | some a =>
      show fsWrite fs (APath.chunk i) a 24000 q = fs q
      unfold fsWrite
      rw [if_neg (hq i (List.mem_cons_self i is))]

theorem processChunks_fs_success (infer : Nat → Option Audio) :
    ∀ (idxs : List Nat) (fs : FS APath) (i : Nat) (a : Audio),
      idxs.Nodup → i ∈ idxs → infer i = some a →
      (processChunks infer idxs fs).2 (APath.chunk i) = some (a, 24000) := by
  intro idxs
  induction idxs with
  | nil => intro fs i a _ hi; exact absurd hi (List.not_mem_nil i)
  | cons j is ih =>
    intro fs i a hnd hi hia
    rw [processChunks_snd_cons]
    rcases List.mem_cons.mp hi with rfl | hi2
    · have hnotin : i ∉ is := (List.nodup_cons.mp hnd).1
      rw [processChunks_fs_untouched infer is _ (APath.chunk i) ?_]
      · rw [hia]
        show fsWrite fs (APath.chunk i) a 24000 (APath.chunk i) = some (a, 24000)
        unfold fsWrite
        rw [if_pos rfl]
      · intro i2 hi2 heq
        have : i = i2 := by injection heq
        exact hnotin (this ▸ hi2)
    · exact ih _ i a (List.nodup_cons.mp hnd).2 hi2 hia

theorem mergeAudioFiles_reads {π : Type} [DecidableEq π] (fs : FS π) (files : List π)
    (out : π) (g : π → Audio × Nat) (hne : files ≠ [])
    (h : ∀ f ∈ files, fs f = some (g f)) (hsr : ∀ f ∈ files, (g f).2 = 24000) :
    mergeAudioFiles fs files out
      = (true, fsWrite fs out ((files.map (fun f => (g f).1)).flatten) 24000) := by
  have hr := readAll_map fs g files h
  cases files with
  | nil => exact absurd rfl hne
  | cons p ps =>
    unfold mergeAudioFiles
    rw [hr]
    simp only [List.map_cons]
    have hlast : ((ps.map g).getLastD (g p)).2 = 24000 := by
      have hmem := List.getLastD_mem_cons (ps.map g) (g p)
      rw [← List.map_cons] at hmem
      obtain ⟨f, hf, hfe⟩ := List.mem_map.mp hmem
      rw [← hfe]
      exact hsr f hf
    rw [hlast, List.map_map]
    rfl

/-- C2: for every sequence of segments in which at least one segment's
synthesis succeeds, the orchestrator loop skips each failed segment and
continues, producing as `generated_files` exactly the chunk files of the
successful segment indices in original order (plus the appended merged file),
and the merged output concatenates exactly those segments' samples in that
order, at 24000 Hz. -/
theorem processScript_skips_failed_segments (chunks : List (List Char))
    (infer : Nat → Option Audio) (fs : FS APath)
    (hex : ∃ i, i < chunks.length ∧ (infer i).isSome = true) :
    (processChunksScript chunks infer fs).1
      = ((List.range chunks.length).filter (fun i => (infer i).isSome)).map APath.chunk
          ++ [APath.final]
    ∧ (processChunksScript chunks infer fs).2 APath.final
      = some ((((List.range chunks.length).filter (fun i => (infer i).isSome)).map
            (fun i => (infer i).getD [])).flatten, 24000) := by
  have hfst := processChunks_fst infer (List.range chunks.length) fs
  have hsuccne :
      ((List.range chunks.length).filter (fun i => (infer i).isSome)) ≠ [] := by
    obtain ⟨i, hi, hsome⟩ := hex
    intro h0
    have hmem : i ∈ (List.range chunks.length).filter (fun i => (infer i).isSome) :=
      List.mem_filter.mpr ⟨List.mem_range.mpr hi, hsome⟩
    rw [h0] at hmem
    exact absurd hmem (List.not_mem_nil i)
  have hfs_succ : ∀ i ∈ (List.range chunks.length).filter (fun i => (infer i).isSome),
      (processChunks infer (List.range chunks.length) fs).2 (APath.chunk i)
        = some ((infer i).getD [], 24000) := by
    intro i hi
    obtain ⟨hmem, hsome⟩ := List.mem_filter.mp hi
    cases ha : infer i with
    | none => rw [ha] at hsome; exact absurd hsome (by simp)
    | some a =>
      exact processChunks_fs_success infer _ fs i a (List.nodup_range _) hmem ha
  have hmerge := mergeAudioFiles_reads
    (processChunks infer (List.range chunks.length) fs).2
    (((List.range chunks.length).filter (fun i => (infer i).isSome)).map APath.chunk)
    APath.final
    (fun p => match p with
      | APath.chunk i => ((infer i).getD [], 24000)
      | APath.final => ([], 0))
    (by simpa using hsuccne)
    (by
      intro f hf
      obtain ⟨i, hi, rfl⟩ := List.mem_map.mp hf
      exact hfs_succ i hi)
    (by
      intro f hf
      obtain ⟨i, hi, rfl⟩ := List.mem_map.mp hf
      rfl)
  have hflat :
      ((((List.range chunks.length).filter (fun i => (infer i).isSome)).map APath.chunk).map
          (fun f => ((fun p => match p with
            | APath.chunk i => ((infer i).getD [], 24000)
            | APath.final => (([] : Audio), 0)) f).1)).flatten
        = (((List.range chunks.length).filter (fun i => (infer i).isSome)).map
            (fun i => (infer i).getD [])).flatten := by
    rw [List.map_map]
    rfl
  have hres : processChunksScript chunks infer fs
      = (((List.range chunks.length).filter (fun i => (infer i).isSome)).map APath.chunk
           ++ [APath.final],
         fsWrite (processChunks infer (List.range chunks.length) fs).2 APath.final
           ((((List.range chunks.length).filter (fun i => (infer i).isSome)).map
              (fun i => (infer i).getD [])).flatten) 24000) := by
    unfold processChunksScript finishScript
    rw [hfst, hmerge]
    rw [if_neg (by simpa using hsuccne)]
    rw [if_pos rfl]
    rw [← hflat]
  constructor
  · rw [hres]
  · rw [hres]
    simp [fsWrite]

/-- The concrete synthesis oracle of the claim's particular case: segment 2
fails, every other segment `i` yields the one-sample buffer `[i]`. -/
def inferFail2 : Nat → Option Audio := fun i => if i = 2 then none else some [Int.ofNat i]

/-- The empty local filesystem over artifact paths. -/
def emptyAFS : FS APath := fun _ => none

/-- C2 witness: with 5 segments where synthesis fails for segment index 2,
the orchestrator produces the four chunk artifacts 0, 1, 3, 4 (plus the merged
file) and the merged output concatenates exactly those four, in order. -/
theorem processScript_skips_failed_segments_witness :
    (∃ i, i < (List.replicate 5 ['a']).length ∧ (inferFail2 i).isSome = true)
    ∧ (processChunksScript (List.replicate 5 ['a']) inferFail2 emptyAFS).1
        = [APath.chunk 0, APath.chunk 1, APath.chunk 3, APath.chunk 4, APath.final]
    ∧ (processChunksScript (List.replicate 5 ['a']) inferFail2 emptyAFS).2 APath.final
        = some ([(0 : Int), 1, 3, 4], 24000) := by
  refine ⟨⟨0, by decide, by decide⟩, ?_, ?_⟩
  · have h := (processScript_skips_failed_segments (List.replicate 5 ['a'])
      inferFail2 emptyAFS ⟨0, by decide, by decide⟩).1
    rw [h]
    decide
  · have h := (processScript_skips_failed_segments (List.replicate 5 ['a'])
      inferFail2 emptyAFS ⟨0, by decide, by decide⟩).2
    rw [h]
    decide

/-! ## Claim theorems for the run configuration (C8) -/

/-- C8 counterexample: with `chunk_size = 10` configured and the 20-character
script `"xxxxxxxxxxxxxxxxxxxx"`, the pipeline's segmentation is a single chunk
(the `max_chars=500` hardcoded at audio_processor.py line 196), not the two
chunks that `maxChars = 10` would give — the configured `chunk_size` does not
determine the `maxChars` passed to the Segmenter. -/
theorem pipelineChunksFor_ignores_config :
    pipelineChunksFor ⟨some 10⟩ (List.replicate 20 'x')
      ≠ chunkText (List.replicate 20 'x') 10
    ∧ pipelineChunksFor ⟨some 10⟩ (List.replicate 20 'x') = [List.replicate 20 'x']
    ∧ (chunkText (List.replicate 20 'x') 10).length = 2 := by decide

/-- C8 amended: the Orchestrator segments every script with `maxChars` fixed
at 500 — the configuration's `chunk_size` is never consulted, so any two
configurations yield the same segmentation. -/
theorem pipelineChunksFor_const (cfg cfg2 : PipelineConfig) (scriptText : List Char) :
    pipelineChunksFor cfg scriptText = chunkText scriptText 500
    ∧ pipelineChunksFor cfg scriptText = pipelineChunksFor cfg2 scriptText :=
  ⟨rfl, rfl⟩

/-! ## Claim theorems for the run driver (C9) -/

theorem runPipelineScripts_eq (outcomes : List (Except String (List APath))) :
    runPipelineScripts outcomes
      = ((outcomes.map scriptFiles).flatten, outcomes.map scriptOk) := by
  induction outcomes with
  | nil => rfl
  | cons o os ih =>
    cases o with
    | ok files =>
      simp only [runPipelineScripts, ih, List.map_cons, List.flatten_cons, scriptFiles, scriptOk]
    | error e =>
      simp only [runPipelineScripts, ih, List.map_cons, List.flatten_cons, scriptFiles,
        scriptOk, List.nil_append]

/-- C9: an exception thrown while processing one script is caught by the run
driver and recorded as that script's failure (`false` in the per-script
record), and the driver always proceeds to the subsequent scripts: the
generated files are the concatenation of each script's own contribution, so
the scripts before and after a failing one complete exactly as they would
have, and a failing script contributes no files. -/
theorem runPipelineScripts_isolation (outcomes : List (Except String (List APath))) :
    (runPipelineScripts outcomes).1 = (outcomes.map scriptFiles).flatten
    ∧ (runPipelineScripts outcomes).2 = outcomes.map scriptOk
    ∧ (∀ (pre post : List (Except String (List APath))) (e : String),
        (runPipelineScripts (pre ++ Except.error e :: post)).1
          = (runPipelineScripts pre).1 ++ (runPipelineScripts post).1
        ∧ (runPipelineScripts (pre ++ Except.error e :: post)).2
          = (runPipelineScripts pre).2 ++ false :: (runPipelineScripts post).2) := by
  refine ⟨by rw [runPipelineScripts_eq], by rw [runPipelineScripts_eq], ?_⟩
  intro pre post e
  rw [runPipelineScripts_eq, runPipelineScripts_eq, runPipelineScripts_eq]
  constructor
  · simp [scriptFiles]
  · simp [scriptOk]

end AudioProc
